import Mathlib

/-!
Verification development for the chunk-streaming core of `crystal-server`
(`src/world.rs` and its registration in `src/main.rs`).

The embedding models:
* `GameState.pending : HashMap<ChunkPos, Option<Priority>>` as an association
  list `Pending` with unique keys (`WF`); `some p` is the spec's `Queued(p)`,
  `none` is `Dispatched`.
* the `ChunkLayer` as an association list from chunk position to the chunk's
  viewer count (the only chunk datum the streaming systems inspect);
* the `queue_pos` closure of `update_client_views`, the receive phase and the
  dispatch phase of `send_recv_chunks`, and `remove_unviewed_chunks`;
* the column generator of `chunk_worker`, with the five `SuperSimplex`
  samplers abstracted as functions `DVec3 → ℚ` (their outputs are "roughly
  [-1, 1]" per the source comment; theorems that need it take that range as a
  hypothesis).
-/

namespace Crystal

/-- `ChunkPos` from valence: a pair of signed chunk coordinates (x, z). -/
abbrev ChunkPos := Int × Int

/-- `type Priority = u64` in `world.rs`; only `min`, comparison and the
constant 0 are applied to it, so `Nat` models it exactly. -/
abbrev Priority := Nat

/-- The `pending` map of `GameState`: `some p` = still queued with priority
`p` (`Queued(p)`), `none` = already sent to the thread pool (`Dispatched`). -/
abbrev Pending := List (ChunkPos × Option Priority)

/-- The chunk layer, as seen by the streaming systems: for each loaded chunk
position, its viewer count. -/
abbrev Layer := List (ChunkPos × Nat)

/-- Association-list lookup (models `HashMap::get` / `Entry` inspection). -/
def alookup {β : Type} : List (ChunkPos × β) → ChunkPos → Option β
  | [], _ => none
  | e :: rest, c => if e.1 = c then some e.2 else alookup rest c

/-- Overwrite the value stored at key `c` (models in-place update through an
occupied `Entry` or `get_mut`); a no-op when `c` is absent. -/
def aset {β : Type} : List (ChunkPos × β) → ChunkPos → β → List (ChunkPos × β)
  | [], _, _ => []
  | e :: rest, c, v => (if e.1 = c then (c, v) else e) :: aset rest c v

/-- Remove the entry with key `c` (models `HashMap::remove`). -/
def aremove {β : Type} : List (ChunkPos × β) → ChunkPos → List (ChunkPos × β)
  | [], _ => []
  | e :: rest, c => if e.1 = c then aremove rest c else e :: aremove rest c

/-- Well-formedness of the association lists: keys are unique, as in the
`HashMap` they model. -/
def WF {β : Type} (m : List (ChunkPos × β)) : Prop :=
  (m.map Prod.fst).Nodup

instance {β : Type} (m : List (ChunkPos × β)) : Decidable (WF m) := by
  unfold WF; infer_instance

/-- The `queue_pos` closure inside `update_client_views` (world.rs:198-217),
with the computed squared view distance abstracted as the argument `dist`:
skip if the layer already has a chunk at `pos`; otherwise min-update a queued
priority, leave a dispatched entry alone, or insert a fresh queued entry. -/
def queue_pos (layer : Layer) (m : Pending) (pos : ChunkPos) (dist : Priority) :
    Pending :=
  if (alookup layer pos).isSome then m
  else
    match alookup m pos with
    | some (some p) => aset m pos (some (min p dist))
    | some none => m
    | none => m ++ [(pos, some dist)]

-- ### Association-list lemmas

theorem alookup_aset_self {β : Type} (m : List (ChunkPos × β)) (c : ChunkPos)
    (v : β) : alookup (aset m c v) c = (alookup m c).map fun _ => v := by
  induction m with
  | nil => rfl
  | cons e rest ih =>
    by_cases h : e.1 = c
    · simp [aset, alookup, h]
    · simp only [aset, if_neg h, alookup, ih]

theorem alookup_aset_ne {β : Type} (m : List (ChunkPos × β)) (c c' : ChunkPos)
    (v : β) (h : c' ≠ c) : alookup (aset m c v) c' = alookup m c' := by
  induction m with
  | nil => rfl
  | cons e rest ih =>
    by_cases he : e.1 = c
    · have hcc : ¬ (c = c') := fun hc => h hc.symm
      have hec : ¬ (e.1 = c') := he ▸ hcc
      simp only [aset, if_pos he, alookup, if_neg hcc, if_neg hec, ih]
    · by_cases he' : e.1 = c'
      · simp only [aset, if_neg he, alookup, if_pos he']
      · simp only [aset, if_neg he, alookup, if_neg he', ih]

theorem alookup_append_right {β : Type} (m m' : List (ChunkPos × β))
    (c : ChunkPos) (h : alookup m c = none) :
    alookup (m ++ m') c = alookup m' c := by
  induction m with
  | nil => rfl
  | cons e rest ih =>
    by_cases he : e.1 = c
    · simp [alookup, he] at h
    · simp only [alookup, if_neg he] at h
      simp only [List.cons_append, alookup, if_neg he]
      exact ih h

theorem alookup_append_left {β : Type} (m m' : List (ChunkPos × β))
    (c : ChunkPos) (v : β) (h : alookup m c = some v) :
    alookup (m ++ m') c = some v := by
  induction m with
  | nil => simp [alookup] at h
  | cons e rest ih =>
    by_cases he : e.1 = c
    · simp only [alookup, if_pos he] at h
      simp only [List.cons_append, alookup, if_pos he]
      exact h
    · simp only [alookup, if_neg he] at h
      simp only [List.cons_append, alookup, if_neg he]
      exact ih h

theorem alookup_aremove_self {β : Type} (m : List (ChunkPos × β))
    (c : ChunkPos) : alookup (aremove m c) c = none := by
  induction m with
  | nil => rfl
  | cons e rest ih =>
    by_cases he : e.1 = c
    · simp only [aremove, if_pos he, ih]
    · simp only [aremove, if_neg he, alookup, ih]

theorem alookup_aremove_ne {β : Type} (m : List (ChunkPos × β))
    (c c' : ChunkPos) (h : c' ≠ c) :
    alookup (aremove m c) c' = alookup m c' := by
  induction m with
  | nil => rfl
  | cons e rest ih =>
    by_cases he : e.1 = c
    · have hec : ¬ (e.1 = c') := he ▸ fun hc => h hc.symm
      simp only [aremove, if_pos he, alookup, if_neg hec, ih]
    · simp only [aremove, if_neg he, alookup, ih]

/-- Lookup after re-keying values (`m.map fun e => (e.1, g e.1 e.2)`). -/
theorem alookup_mapval {β γ : Type} (m : List (ChunkPos × β))
    (g : ChunkPos → β → γ) (c : ChunkPos) :
    alookup (m.map fun e => (e.1, g e.1 e.2)) c = (alookup m c).map (g c) := by
  induction m with
  | nil => rfl
  | cons e rest ih =>
    by_cases he : e.1 = c
    · subst he; simp [alookup]
    · simp only [List.map_cons, alookup, if_neg he, ih]

theorem alookup_eq_none_iff {β : Type} (m : List (ChunkPos × β))
    (c : ChunkPos) : alookup m c = none ↔ c ∉ m.map Prod.fst := by
  induction m with
  | nil => simp [alookup]
  | cons e rest ih =>
    by_cases he : e.1 = c
    · simp [alookup, he]
    · simp only [alookup, if_neg he, List.map_cons, List.mem_cons]
      rw [ih]
      constructor
      · rintro h (h1 | h2)
        · exact he h1.symm
        · exact h h2
      · intro h h2; exact h (Or.inr h2)

theorem alookup_mem {β : Type} (m : List (ChunkPos × β)) (c : ChunkPos)
    (v : β) (h : alookup m c = some v) : (c, v) ∈ m := by
  induction m with
  | nil => simp [alookup] at h
  | cons e rest ih =>
    by_cases he : e.1 = c
    · simp only [alookup, if_pos he] at h
      have hev : e = (c, v) := by
        obtain ⟨e1, e2⟩ := e
        simp only at he
        cases Option.some.inj h
        cases he
        rfl
      rw [hev]
      exact List.mem_cons_self _ _
    · simp only [alookup, if_neg he] at h
      exact List.mem_cons_of_mem _ (ih h)

theorem mem_alookup {β : Type} (m : List (ChunkPos × β)) (c : ChunkPos)
    (v : β) (hwf : WF m) (h : (c, v) ∈ m) : alookup m c = some v := by
  induction m with
  | nil => simp at h
  | cons e rest ih =>
    simp only [WF, List.map_cons, List.nodup_cons] at hwf
    rcases List.mem_cons.mp h with h1 | h2
    · subst h1; simp [alookup]
    · by_cases he : e.1 = c
      · exact absurd (he ▸ List.mem_map.mpr ⟨(c, v), h2, rfl⟩) hwf.1
      · simp only [alookup, if_neg he]
        exact ih hwf.2 h2

-- ### Key sets and WF preservation

theorem aset_keys {β : Type} (m : List (ChunkPos × β)) (c : ChunkPos)
    (v : β) : (aset m c v).map Prod.fst = m.map Prod.fst := by
  induction m with
  | nil => rfl
  | cons e rest ih =>
    by_cases he : e.1 = c
    · subst he
      simp [aset, ih]
    · simp [aset, he, ih]

theorem mem_keys_aremove {β : Type} (m : List (ChunkPos × β)) (c a : ChunkPos)
    (h : a ∈ (aremove m c).map Prod.fst) : a ∈ m.map Prod.fst := by
  induction m with
  | nil => simp [aremove] at h
  | cons e rest ih =>
    by_cases he : e.1 = c
    · simp only [aremove, if_pos he] at h
      exact List.mem_cons_of_mem _ (ih h)
    · simp only [aremove, if_neg he, List.map_cons, List.mem_cons] at h ⊢
      exact h.imp id ih

theorem WF_aset {β : Type} (m : List (ChunkPos × β)) (c : ChunkPos) (v : β)
    (hwf : WF m) : WF (aset m c v) := by
  unfold WF
  rw [aset_keys]
  exact hwf

theorem WF_aremove {β : Type} (m : List (ChunkPos × β)) (c : ChunkPos)
    (hwf : WF m) : WF (aremove m c) := by
  induction m with
  | nil => exact hwf
  | cons e rest ih =>
    simp only [WF, List.map_cons, List.nodup_cons] at hwf
    by_cases he : e.1 = c
    · simp only [WF, aremove, if_pos he]
      exact ih hwf.2
    · simp only [WF, aremove, if_neg he, List.map_cons, List.nodup_cons]
      exact ⟨fun hmem => hwf.1 (mem_keys_aremove rest c e.1 hmem), ih hwf.2⟩

theorem WF_append_new {β : Type} (m : List (ChunkPos × β)) (c : ChunkPos)
    (v : β) (hwf : WF m) (h : alookup m c = none) : WF (m ++ [(c, v)]) := by
  unfold WF
  rw [List.map_append]
  simp only [List.map_cons, List.map_nil]
  rw [List.nodup_append]
  refine ⟨hwf, List.nodup_singleton _, ?_⟩
  intro a ha hb
  simp only [List.mem_singleton] at hb
  exact (alookup_eq_none_iff m c).mp h (hb ▸ ha)

theorem WF_mapval {β γ : Type} (m : List (ChunkPos × β))
    (g : ChunkPos → β → γ) (hwf : WF m) :
    WF (m.map fun e => (e.1, g e.1 e.2)) := by
  unfold WF
  rw [List.map_map]
  have hcomp : (Prod.fst ∘ fun e : ChunkPos × β => (e.1, g e.1 e.2)) =
      Prod.fst := by
    funext e; rfl
  rw [hcomp]
  exact hwf

-- ### queue_pos case lemmas

theorem queue_pos_chunk_present (layer : Layer) (m : Pending) (c : ChunkPos)
    (d : Priority) (h : (alookup layer c).isSome) :
    queue_pos layer m c d = m := by
  unfold queue_pos
  rw [if_pos h]

theorem queue_pos_vacant (layer : Layer) (m : Pending) (c : ChunkPos)
    (d : Priority) (hl : alookup layer c = none) (hm : alookup m c = none) :
    queue_pos layer m c d = m ++ [(c, some d)] := by
  unfold queue_pos
  rw [hl, hm]
  rfl

theorem queue_pos_queued (layer : Layer) (m : Pending) (c : ChunkPos)
    (d p : Priority) (hl : alookup layer c = none)
    (hm : alookup m c = some (some p)) :
    queue_pos layer m c d = aset m c (some (min p d)) := by
  unfold queue_pos
  rw [hl, hm]
  rfl

theorem queue_pos_dispatched (layer : Layer) (m : Pending) (c : ChunkPos)
    (d : Priority) (hm : alookup m c = some none) :
    queue_pos layer m c d = m := by
  unfold queue_pos
  by_cases hl : (alookup layer c).isSome
  · rw [if_pos hl]
  · rw [if_neg hl, hm]

theorem WF_queue_pos (layer : Layer) (m : Pending) (c : ChunkPos)
    (p : Priority) (hwf : WF m) : WF (queue_pos layer m c p) := by
  by_cases hl : (alookup layer c).isSome
  · rw [queue_pos_chunk_present layer m c p hl]; exact hwf
  · rw [Option.not_isSome_iff_eq_none] at hl
    match hm : alookup m c with
    | some (some q) =>
      rw [queue_pos_queued layer m c p q hl hm]
      exact WF_aset m c _ hwf
    | some none =>
      rw [queue_pos_dispatched layer m c p hm]
      exact hwf
    | none =>
      rw [queue_pos_vacant layer m c p hl hm]
      exact WF_append_new m c _ hwf hm

/-- queue_pos never touches entries for other coordinates. -/
theorem alookup_queue_pos_ne (layer : Layer) (m : Pending) (c c' : ChunkPos)
    (d : Priority) (h : c' ≠ c) :
    alookup (queue_pos layer m c d) c' = alookup m c' := by
  by_cases hl : (alookup layer c).isSome
  · rw [queue_pos_chunk_present layer m c d hl]
  · rw [Option.not_isSome_iff_eq_none] at hl
    match hm : alookup m c with
    | some (some q) =>
      rw [queue_pos_queued layer m c d q hl hm]
      exact alookup_aset_ne m c c' _ h
    | some none =>
      rw [queue_pos_dispatched layer m c d hm]
    | none =>
      rw [queue_pos_vacant layer m c d hl hm]
      by_cases h2 : alookup m c' = none
      · rw [alookup_append_right m _ c' h2, h2]
        simp only [alookup]
        rw [if_neg fun hc => h hc.symm]
      · obtain ⟨v, hv⟩ := Option.ne_none_iff_exists'.mp h2
        rw [alookup_append_left m _ c' v hv, hv]

-- ### C1: request/queue_pos semantics

/-- C1. Requesting a coordinate twice while it is still queued stores the
minimum of the two priorities; a min-update never raises the stored priority;
and a request for a dispatched coordinate (entry `none`) changes nothing. -/
theorem c1_request_min_priority (layer : Layer) (m : Pending) (c : ChunkPos)
    (p1 p2 q : Priority) :
    (alookup layer c = none → alookup m c = none →
      alookup (queue_pos layer (queue_pos layer m c p1) c p2) c =
        some (some (min p1 p2))) ∧
    (alookup layer c = none → alookup m c = some (some q) →
      alookup (queue_pos layer m c p2) c = some (some (min q p2)) ∧
        min q p2 ≤ q) ∧
    (alookup m c = some none → queue_pos layer m c p2 = m) := by
  refine ⟨?_, ?_, ?_⟩
  · intro hl hm
    have h2 : alookup (queue_pos layer m c p1) c = some (some p1) := by
      rw [queue_pos_vacant layer m c p1 hl hm,
        alookup_append_right m _ c hm]
      simp [alookup]
    rw [queue_pos_queued layer (queue_pos layer m c p1) c p2 p1 hl h2,
      alookup_aset_self, h2]
    rfl
  · intro hl hm
    refine ⟨?_, min_le_left _ _⟩
    rw [queue_pos_queued layer m c p2 q hl hm, alookup_aset_self, hm]
    rfl
  · exact queue_pos_dispatched layer m c p2

/-- Witness for C1 at concrete inputs. -/
theorem c1_request_min_priority_witness :
    alookup (queue_pos [] (queue_pos [] [] ((0 : Int), (0 : Int)) 7)
      ((0 : Int), (0 : Int)) 3) ((0 : Int), (0 : Int)) = some (some 3) := by
  have h := (c1_request_min_priority [] [] ((0 : Int), (0 : Int)) 7 3 0).1
    (by decide) (by decide)
  simpa using h

-- ### The dispatch phase of send_recv_chunks (world.rs:263-284)

/-- The `(priority, pos)` pairs collected by the loop over `&mut
state.pending` from entries that still hold a priority (`priority.take()`,
world.rs:264-270). -/
def queuedPairs (m : Pending) : List (Priority × ChunkPos) :=
  m.filterMap fun e => e.2.map fun p => (p, e.1)

/-- The pending map after the collection loop: every priority has been
`take`n, leaving `None` (= `Dispatched`) everywhere. -/
def takeAll (m : Pending) : Pending :=
  m.map fun e => (e.1, none)

/-- The comparison used by `to_send.sort_unstable_by_key(|(pri, _)| *pri)`:
order by priority alone. -/
def priLE (a b : Priority × ChunkPos) : Prop :=
  a.1 ≤ b.1

instance : DecidableRel priLE := fun a b =>
  inferInstanceAs (Decidable (a.1 ≤ b.1))

/-- The submission loop (world.rs:276-284): walk the sorted batch; a
successful `try_send` delivers the position to the worker channel, a failed
one resets the entry's priority to `Some(0)`. `ok` abstracts which
`try_send` calls succeed. Returns the final map and the positions actually
delivered, in submission order. -/
def sendLoop (ok : ChunkPos → Bool) :
    List (Priority × ChunkPos) → Pending → Pending × List ChunkPos
  | [], m => (m, [])
  | pc :: rest, m =>
    if ok pc.2 then
      let r := sendLoop ok rest m
      (r.1, pc.2 :: r.2)
    else
      sendLoop ok rest (aset m pc.2 (some 0))

/-- The whole dispatch phase of `send_recv_chunks`: collect the still-queued
entries (marking them dispatched), sort ascending by priority, submit. -/
def sendRecvDispatch (ok : ChunkPos → Bool) (m : Pending) :
    Pending × List ChunkPos :=
  sendLoop ok (List.insertionSort priLE (queuedPairs m)) (takeAll m)

theorem alookup_takeAll (m : Pending) (c : ChunkPos) :
    alookup (takeAll m) c = (alookup m c).map fun _ => none := by
  induction m with
  | nil => rfl
  | cons e rest ih =>
    by_cases he : e.1 = c
    · simp [takeAll, alookup, he]
    · simp only [takeAll, List.map_cons, alookup, if_neg he] at ih ⊢
      exact ih

theorem WF_takeAll (m : Pending) (hwf : WF m) : WF (takeAll m) := by
  unfold WF takeAll
  rw [List.map_map]
  have hcomp : (Prod.fst ∘ fun e : ChunkPos × Option Priority =>
      (e.1, (none : Option Priority))) = Prod.fst := by
    funext e; rfl
  rw [hcomp]
  exact hwf

theorem mem_queuedPairs (m : Pending) (p : Priority) (c : ChunkPos) :
    (p, c) ∈ queuedPairs m ↔ (c, some p) ∈ m := by
  unfold queuedPairs
  rw [List.mem_filterMap]
  constructor
  · rintro ⟨e, hmem, he⟩
    obtain ⟨q, hq, hpair⟩ := Option.map_eq_some'.mp he
    obtain ⟨h1, h2⟩ := Prod.mk.injEq .. ▸ hpair
    cases h1; cases h2
    obtain ⟨e1, e2⟩ := e
    simp only at hq
    rw [hq] at hmem
    exact hmem
  · intro hmem
    exact ⟨(c, some p), hmem, rfl⟩

/-- The second components of `queuedPairs m` form a sublist of the keys. -/
theorem queuedPairs_snd_sublist (m : Pending) :
    ((queuedPairs m).map Prod.snd).Sublist (m.map Prod.fst) := by
  induction m with
  | nil => simp [queuedPairs]
  | cons e rest ih =>
    match he : e.2 with
    | none =>
      simp only [queuedPairs, List.filterMap_cons, he, Option.map_none',
        List.map_cons]
      exact List.Sublist.cons _ ih
    | some p =>
      simp only [queuedPairs, List.filterMap_cons, he, Option.map_some',
        List.map_cons]
      exact List.Sublist.cons₂ _ ih

theorem sortedPairs_snd_nodup (m : Pending) (hwf : WF m) :
    List.Nodup ((List.insertionSort priLE (queuedPairs m)).map Prod.snd) := by
  have hperm : List.Perm ((List.insertionSort priLE (queuedPairs m)).map
      Prod.snd) ((queuedPairs m).map Prod.snd) :=
    (List.perm_insertionSort priLE (queuedPairs m)).map Prod.snd
  exact hperm.nodup_iff.mpr ((queuedPairs_snd_sublist m).nodup hwf)

theorem sendLoop_submitted (ok : ChunkPos → Bool)
    (l : List (Priority × ChunkPos)) (m : Pending) :
    (sendLoop ok l m).2 = (l.filter fun pc => ok pc.2).map Prod.snd := by
  induction l generalizing m with
  | nil => rfl
  | cons pc rest ih =>
    by_cases hok : ok pc.2
    · simp only [sendLoop, if_pos hok, List.filter_cons, hok, if_true,
        List.map_cons, ih]
    · simp only [sendLoop, if_neg hok, List.filter_cons, hok,
        Bool.false_eq_true, if_false, ih]

theorem sendLoop_WF (ok : ChunkPos → Bool) (l : List (Priority × ChunkPos))
    (m : Pending) (hwf : WF m) : WF (sendLoop ok l m).1 := by
  induction l generalizing m with
  | nil => exact hwf
  | cons pc rest ih =>
    by_cases hok : ok pc.2
    · simp only [sendLoop, if_pos hok]
      exact ih m hwf
    · simp only [sendLoop, if_neg hok]
      exact ih _ (WF_aset m pc.2 _ hwf)

theorem sendLoop_lookup_notmem (ok : ChunkPos → Bool)
    (l : List (Priority × ChunkPos)) (m : Pending) (c : ChunkPos)
    (h : c ∉ l.map Prod.snd) :
    alookup (sendLoop ok l m).1 c = alookup m c := by
  induction l generalizing m with
  | nil => rfl
  | cons pc rest ih =>
    simp only [List.map_cons, List.mem_cons, not_or] at h
    by_cases hok : ok pc.2
    · simp only [sendLoop, if_pos hok]
      exact ih m h.2
    · simp only [sendLoop, if_neg hok]
      rw [ih _ h.2, alookup_aset_ne m pc.2 c _ h.1]

theorem sendLoop_lookup_ok (ok : ChunkPos → Bool)
    (l : List (Priority × ChunkPos)) (m : Pending) (c : ChunkPos)
    (hok : ok c = true) :
    alookup (sendLoop ok l m).1 c = alookup m c := by
  induction l generalizing m with
  | nil => rfl
  | cons pc rest ih =>
    by_cases h2 : ok pc.2
    · simp only [sendLoop, if_pos h2]
      exact ih m
    · simp only [sendLoop, if_neg h2]
      have hne : c ≠ pc.2 := fun hc => h2 (hc ▸ hok)
      rw [ih _, alookup_aset_ne m pc.2 c _ hne]

theorem sendLoop_lookup_fail (ok : ChunkPos → Bool) (p : Priority)
    (c : ChunkPos) (hfail : ok c = false) :
    ∀ (l : List (Priority × ChunkPos)) (m : Pending),
      (l.map Prod.snd).Nodup → (p, c) ∈ l → (alookup m c).isSome →
      alookup (sendLoop ok l m).1 c = some (some 0) := by
  intro l
  induction l with
  | nil =>
    intro m _ hmem _
    simp at hmem
  | cons pc rest ih =>
    intro m hnd hmem hsome
    simp only [List.map_cons, List.nodup_cons] at hnd
    rcases List.mem_cons.mp hmem with h1 | h2
    · have hc2 : pc.2 = c := by rw [← h1]
      have hok : ¬ ok pc.2 = true := by
        rw [hc2, hfail]; exact Bool.false_ne_true
      simp only [sendLoop, if_neg hok]
      have hnot : c ∉ rest.map Prod.snd := hc2 ▸ hnd.1
      rw [sendLoop_lookup_notmem ok rest _ c hnot, hc2, alookup_aset_self]
      obtain ⟨v, hv⟩ := Option.isSome_iff_exists.mp hsome
      rw [hv]
      rfl
    · have hc2 : pc.2 ≠ c := fun hc =>
        hnd.1 (hc ▸ List.mem_map.mpr ⟨(p, c), h2, rfl⟩)
      by_cases hok : ok pc.2
      · simp only [sendLoop, if_pos hok]
        exact ih m hnd.2 h2 hsome
      · simp only [sendLoop, if_neg hok]
        refine ih _ hnd.2 h2 ?_
        rw [alookup_aset_ne m pc.2 c _ fun hc => hc2 hc.symm]
        exact hsome

/-- A coordinate is delivered to the worker channel iff it was still queued
and its `try_send` succeeds. -/
theorem mem_dispatch_submitted (ok : ChunkPos → Bool) (m : Pending)
    (c : ChunkPos) :
    c ∈ (sendRecvDispatch ok m).2 ↔
      (∃ p, (p, c) ∈ queuedPairs m) ∧ ok c = true := by
  unfold sendRecvDispatch
  rw [sendLoop_submitted]
  constructor
  · intro h
    obtain ⟨pc, hmem, hsnd⟩ := List.mem_map.mp h
    obtain ⟨hin, hok⟩ := List.mem_filter.mp hmem
    subst hsnd
    refine ⟨⟨pc.1, ?_⟩, hok⟩
    exact (List.mem_insertionSort priLE).mp hin
  · rintro ⟨⟨p, hp⟩, hok⟩
    refine List.mem_map.mpr ⟨(p, c), List.mem_filter.mpr ⟨?_, hok⟩, rfl⟩
    exact (List.mem_insertionSort priLE).mpr hp

/-- Priority stored for a queued coordinate (0 for others); only used to
state the ordering of a dispatch batch. -/
def priOfQ (m : Pending) (c : ChunkPos) : Priority :=
  match alookup m c with
  | some (some p) => p
  | _ => 0

-- ### C2: the dispatch step

/-- C2. With all submissions succeeding, the dispatch phase submits exactly
the still-queued coordinates, leaves every registry entry in `Dispatched`
(`none`) state without adding or deleting entries, does not resubmit
already-dispatched coordinates, and the batch is ordered by ascending
priority. -/
theorem c2_dispatch_batch (m : Pending) (hwf : WF m) :
    (∀ c p, alookup m c = some (some p) →
      c ∈ (sendRecvDispatch (fun _ => true) m).2) ∧
    (∀ c, c ∈ (sendRecvDispatch (fun _ => true) m).2 →
      ∃ p, alookup m c = some (some p)) ∧
    (∀ c, alookup m c = some none →
      c ∉ (sendRecvDispatch (fun _ => true) m).2) ∧
    (∀ c v, alookup m c = some v →
      alookup (sendRecvDispatch (fun _ => true) m).1 c = some none) ∧
    (∀ c, alookup m c = none →
      alookup (sendRecvDispatch (fun _ => true) m).1 c = none) ∧
    (sendRecvDispatch (fun _ => true) m).2.Pairwise
      (fun c1 c2 => priOfQ m c1 ≤ priOfQ m c2) := by
  have hlook : ∀ c, alookup (sendRecvDispatch (fun _ => true) m).1 c =
      (alookup m c).map fun _ => none := by
    intro c
    unfold sendRecvDispatch
    rw [sendLoop_lookup_ok _ _ _ _ rfl, alookup_takeAll]
  refine ⟨?_, ?_, ?_, ?_, ?_, ?_⟩
  · intro c p hq
    exact (mem_dispatch_submitted _ m c).mpr
      ⟨⟨p, (mem_queuedPairs m p c).mpr (alookup_mem m c _ hq)⟩, rfl⟩
  · intro c hc
    obtain ⟨⟨p, hp⟩, -⟩ := (mem_dispatch_submitted _ m c).mp hc
    exact ⟨p, mem_alookup m c _ hwf ((mem_queuedPairs m p c).mp hp)⟩
  · intro c hdisp hc
    obtain ⟨⟨p, hp⟩, -⟩ := (mem_dispatch_submitted _ m c).mp hc
    have := mem_alookup m c _ hwf ((mem_queuedPairs m p c).mp hp)
    rw [hdisp] at this
    exact Option.noConfusion (Option.some.inj this)
  · intro c v hv
    rw [hlook, hv]
    rfl
  · intro c hv
    rw [hlook, hv]
    rfl
  · haveI : IsTotal (Priority × ChunkPos) priLE :=
      ⟨fun a b => le_total a.1 b.1⟩
    haveI : IsTrans (Priority × ChunkPos) priLE :=
      ⟨fun _ _ _ h1 h2 => le_trans h1 h2⟩
    have hsorted : (List.insertionSort priLE (queuedPairs m)).Pairwise priLE :=
      List.sorted_insertionSort priLE (queuedPairs m)
    have hval : ∀ pc ∈ List.insertionSort priLE (queuedPairs m),
        priOfQ m pc.2 = pc.1 := by
      intro pc hpc
      have hmem : (pc.1, pc.2) ∈ queuedPairs m :=
        (List.mem_insertionSort priLE).mp hpc
      have := mem_alookup m pc.2 _ hwf ((mem_queuedPairs m pc.1 pc.2).mp hmem)
      unfold priOfQ
      rw [this]
    unfold sendRecvDispatch
    rw [sendLoop_submitted]
    have hfilter : ((List.insertionSort priLE (queuedPairs m)).filter
        fun pc => (fun _ => true) pc.2) =
        List.insertionSort priLE (queuedPairs m) :=
      List.filter_eq_self.mpr fun a _ => rfl
    rw [hfilter, List.pairwise_map]
    refine hsorted.imp_of_mem ?_
    intro a b ha hb hab
    rw [hval a ha, hval b hb]
    exact hab

/-- Witness for C2 at a concrete registry. -/
theorem c2_dispatch_batch_witness :
    ((0 : Int), (0 : Int)) ∈
      (sendRecvDispatch (fun _ => true)
        [(((0 : Int), (0 : Int)), some 4), (((1 : Int), (0 : Int)), none)]).2 := by
  exact (c2_dispatch_batch _ (by decide)).1 ((0 : Int), (0 : Int)) 4 (by decide)

-- ### C5: failed submissions are re-queued at top priority

/-- C5. If the `try_send` for a still-queued coordinate fails, the dispatch
phase leaves its entry as `Queued(0)` instead of `Dispatched`: it is not
delivered to the workers this cycle, and any later dispatch cycle whose send
succeeds delivers it. -/
theorem c5_resubmit_failed (m : Pending) (ok : ChunkPos → Bool) (c : ChunkPos)
    (p : Priority) (hwf : WF m) (hq : alookup m c = some (some p))
    (hfail : ok c = false) :
    alookup (sendRecvDispatch ok m).1 c = some (some 0) ∧
    c ∉ (sendRecvDispatch ok m).2 ∧
    ∀ ok2 : ChunkPos → Bool, ok2 c = true →
      c ∈ (sendRecvDispatch ok2 (sendRecvDispatch ok m).1).2 := by
  have hmem : (p, c) ∈ List.insertionSort priLE (queuedPairs m) :=
    (List.mem_insertionSort priLE).mpr
      ((mem_queuedPairs m p c).mpr (alookup_mem m c _ hq))
  have h1 : alookup (sendRecvDispatch ok m).1 c = some (some 0) := by
    unfold sendRecvDispatch
    refine sendLoop_lookup_fail ok p c hfail _ _
      (sortedPairs_snd_nodup m hwf) hmem ?_
    rw [alookup_takeAll, hq]
    rfl
  refine ⟨h1, ?_, ?_⟩
  · intro hsub
    obtain ⟨-, hok⟩ := (mem_dispatch_submitted ok m c).mp hsub
    rw [hfail] at hok
    exact Bool.false_ne_true hok
  · intro ok2 hok2
    refine (mem_dispatch_submitted ok2 _ c).mpr ⟨⟨0, ?_⟩, hok2⟩
    exact (mem_queuedPairs _ 0 c).mpr (alookup_mem _ c _ h1)

/-- Witness for C5 at a concrete registry with a failing channel. -/
theorem c5_resubmit_failed_witness :
    alookup (sendRecvDispatch (fun _ => false)
      [(((2 : Int), (3 : Int)), some 9)]).1 ((2 : Int), (3 : Int)) =
      some (some 0) :=
  (c5_resubmit_failed _ (fun _ => false) ((2 : Int), (3 : Int)) 9
    (by decide) (by decide) rfl).1

-- ### The receive phase of send_recv_chunks, eviction, and the system state

/-- System state the streaming systems act on: the pending registry and the
chunk layer. -/
structure SysState where
  pending : Pending
  layer : Layer
deriving DecidableEq

/-- Processing one received `(pos, chunk)` pair in the receive phase of
`send_recv_chunks` (world.rs:238-257): `state.pending.remove(&pos)` must
yield a dispatched entry (`Some(None)`), in which case the chunk is inserted
into the layer (`vc` is the viewer count the layer tracks for it); the other
two branches `panic!`, modeled as `none`. -/
def processReceived (s : SysState) (pos : ChunkPos) (vc : Nat) :
    Option SysState :=
  match alookup s.pending pos with
  | some none => some ⟨aremove s.pending pos, s.layer ++ [(pos, vc)]⟩
  | some (some _) => none
  | none => none

/-- `remove_unviewed_chunks` (world.rs:174-180): retain exactly the chunks
with a positive viewer count. -/
def remove_unviewed_chunks (layer : Layer) : Layer :=
  layer.filter fun e => decide (0 < e.2)

/-- External update of the per-chunk viewer counts (done by the valence
layer as viewers move); keys are untouched. -/
def setViewerCounts (layer : Layer) (f : ChunkPos → Nat) : Layer :=
  layer.map fun e => (e.1, f e.1)

/-- One operation of the streaming core. `request` is one `queue_pos` call
during `update_client_views`; `dispatch` is the send phase of
`send_recv_chunks` (with `ok` abstracting channel-send outcomes); `recv` is
the processing of one finished chunk; `setViewers` is the external
viewer-count bookkeeping; `evict` is `remove_unviewed_chunks` (present in
the source, though not registered in the schedule; see C7). -/
inductive Op where
  | request (c : ChunkPos) (p : Priority)
  | dispatch (ok : ChunkPos → Bool)
  | recv (c : ChunkPos) (vc : Nat)
  | setViewers (f : ChunkPos → Nat)
  | evict

/-- Effect of one operation; `none` models a `panic!`. -/
def step (s : SysState) : Op → Option SysState
  | .request c p => some ⟨queue_pos s.layer s.pending c p, s.layer⟩
  | .dispatch ok => some ⟨(sendRecvDispatch ok s.pending).1, s.layer⟩
  | .recv c vc => processReceived s c vc
  | .setViewers f => some ⟨s.pending, setViewerCounts s.layer f⟩
  | .evict => some ⟨s.pending, remove_unviewed_chunks s.layer⟩

/-- Run a list of operations, aborting on panic. -/
def runO (s : SysState) : List Op → Option SysState
  | [] => some s
  | op :: l =>
    match step s op with
    | some s2 => runO s2 l
    | none => none

/-- States reachable from server start (empty registry, empty layer). -/
inductive Reachable : SysState → Prop
  | init : Reachable ⟨[], []⟩
  | next {s s2 : SysState} {op : Op} : Reachable s → step s op = some s2 →
      Reachable s2

-- ### C4: results are only accepted for dispatched coordinates

/-- C4. A drained result for a coordinate that is not in `Dispatched` state
(absent, or still holding a queued priority) hits a `panic!`; a result for a
dispatched coordinate is merged: the chunk is inserted into the layer and
the registry entry is removed in the same step. -/
theorem c4_result_requires_dispatched (s : SysState) (c : ChunkPos)
    (vc : Nat) :
    (alookup s.pending c ≠ some none → processReceived s c vc = none) ∧
    (alookup s.pending c = some none →
      processReceived s c vc =
        some ⟨aremove s.pending c, s.layer ++ [(c, vc)]⟩) := by
  constructor
  · intro h
    unfold processReceived
    match hm : alookup s.pending c with
    | some none => exact absurd hm h
    | some (some p) => rfl
    | none => rfl
  · intro h
    unfold processReceived
    rw [h]

/-- Witness for C4: a result for a still-queued coordinate panics, one for a
dispatched coordinate merges. -/
theorem c4_result_requires_dispatched_witness :
    processReceived ⟨[(((0 : Int), (0 : Int)), some 5)], []⟩
      ((0 : Int), (0 : Int)) 1 = none ∧
    processReceived ⟨[(((0 : Int), (0 : Int)), none)], []⟩
      ((0 : Int), (0 : Int)) 1 =
      some ⟨[], [(((0 : Int), (0 : Int)), 1)]⟩ :=
  ⟨(c4_result_requires_dispatched ⟨[(((0 : Int), (0 : Int)), some 5)], []⟩
      ((0 : Int), (0 : Int)) 1).1 (by decide),
    (c4_result_requires_dispatched ⟨[(((0 : Int), (0 : Int)), none)], []⟩
      ((0 : Int), (0 : Int)) 1).2 (by decide)⟩

-- ### Auxiliary lookup lemmas for the step machine

theorem alookup_singleton_ne {β : Type} (c c' : ChunkPos) (v : β)
    (h : c' ≠ c) : alookup [(c, v)] c' = none := by
  simp only [alookup]
  rw [if_neg fun hc => h hc.symm]

theorem alookup_aset_none {β : Type} (m : List (ChunkPos × β))
    (c c' : ChunkPos) (v : β) (h : alookup m c' = none) :
    alookup (aset m c v) c' = none := by
  by_cases hc : c' = c
  · subst hc
    rw [alookup_aset_self, h]
    rfl
  · rw [alookup_aset_ne m c c' v hc]
    exact h

theorem sendLoop_lookup_none (ok : ChunkPos → Bool) (c : ChunkPos) :
    ∀ (l : List (Priority × ChunkPos)) (m : Pending), alookup m c = none →
      alookup (sendLoop ok l m).1 c = none := by
  intro l
  induction l with
  | nil => intro m h; exact h
  | cons pc rest ih =>
    intro m h
    by_cases hok : ok pc.2
    · simp only [sendLoop, if_pos hok]
      exact ih m h
    · simp only [sendLoop, if_neg hok]
      exact ih _ (alookup_aset_none m pc.2 c _ h)

theorem sendRecvDispatch_lookup_none (ok : ChunkPos → Bool) (m : Pending)
    (c : ChunkPos) (h : alookup m c = none) :
    alookup (sendRecvDispatch ok m).1 c = none := by
  unfold sendRecvDispatch
  refine sendLoop_lookup_none ok c _ _ ?_
  rw [alookup_takeAll, h]
  rfl

/-- A coordinate whose entry holds no priority is absent from the sorted
batch, so the submission loop never touches it. -/
theorem sendRecvDispatch_lookup_notqueued (ok : ChunkPos → Bool) (m : Pending)
    (c : ChunkPos) (hwf : WF m)
    (hnq : ∀ p, alookup m c ≠ some (some p)) :
    alookup (sendRecvDispatch ok m).1 c = (alookup m c).map fun _ => none := by
  unfold sendRecvDispatch
  have hnot : c ∉ (List.insertionSort priLE (queuedPairs m)).map Prod.snd := by
    intro hmem
    obtain ⟨pc, hin, hsnd⟩ := List.mem_map.mp hmem
    have hq : (pc.1, c) ∈ queuedPairs m := by
      have := (List.mem_insertionSort priLE).mp hin
      rw [← hsnd]
      exact this
    exact hnq pc.1 (mem_alookup m c _ hwf ((mem_queuedPairs m pc.1 c).mp hq))
  rw [sendLoop_lookup_notmem ok _ _ c hnot, alookup_takeAll]

theorem alookup_setViewerCounts (layer : Layer) (f : ChunkPos → Nat)
    (c : ChunkPos) :
    alookup (setViewerCounts layer f) c = (alookup layer c).map fun _ => f c := by
  induction layer with
  | nil => rfl
  | cons e rest ih =>
    by_cases he : e.1 = c
    · subst he; simp [setViewerCounts, alookup]
    · simp only [setViewerCounts, List.map_cons, alookup, if_neg he] at ih ⊢
      exact ih

theorem alookup_remove_unviewed_none (layer : Layer) (c : ChunkPos)
    (h : alookup layer c = none) :
    alookup (remove_unviewed_chunks layer) c = none := by
  rw [alookup_eq_none_iff] at h ⊢
  intro hc
  obtain ⟨e, hmem, hfst⟩ := List.mem_map.mp hc
  exact h (List.mem_map.mpr ⟨e, List.mem_filter.mp hmem |>.1, hfst⟩)

theorem step_WF (s s2 : SysState) (op : Op) (h : step s op = some s2)
    (hwf : WF s.pending) : WF s2.pending := by
  cases op with
  | request c p =>
    cases Option.some.inj h
    exact WF_queue_pos s.layer s.pending c p hwf
  | dispatch ok =>
    cases Option.some.inj h
    exact sendLoop_WF ok _ _ (WF_takeAll s.pending hwf)
  | recv c vc =>
    have h2 : processReceived s c vc = some s2 := h
    unfold processReceived at h2
    match hm : alookup s.pending c with
    | some none =>
      rw [hm] at h2
      cases Option.some.inj h2
      exact WF_aremove s.pending c hwf
    | some (some p) => rw [hm] at h2; exact Option.noConfusion h2
    | none => rw [hm] at h2; exact Option.noConfusion h2
  | setViewers f =>
    cases Option.some.inj h
    exact hwf
  | evict =>
    cases Option.some.inj h
    exact hwf

theorem runO_WF (l : List Op) :
    ∀ (s s2 : SysState), runO s l = some s2 → WF s.pending →
      WF s2.pending := by
  induction l with
  | nil =>
    intro s s2 h hwf
    cases Option.some.inj h
    exact hwf
  | cons op rest ih =>
    intro s s2 h hwf
    unfold runO at h
    match hs : step s op with
    | some s1 =>
      rw [hs] at h
      exact ih s1 s2 h (step_WF s s1 op hs hwf)
    | none => rw [hs] at h; exact Option.noConfusion h

-- ### C6: pending coordinates have no generated chunk

/-- The C6 invariant: every registered pending coordinate is absent from
the chunk layer. -/
def PendingFresh (s : SysState) : Prop :=
  ∀ c, (alookup s.pending c).isSome → alookup s.layer c = none

theorem step_preserves_fresh (s s2 : SysState) (op : Op)
    (h : step s op = some s2) (hinv : PendingFresh s) : PendingFresh s2 := by
  cases op with
  | request c p =>
    cases Option.some.inj h
    intro c' hc'
    by_cases hcc : c' = c
    · subst hcc
      by_cases hl : (alookup s.layer c').isSome
      · rw [queue_pos_chunk_present s.layer s.pending c' p hl] at hc'
        exact hinv c' hc'
      · exact Option.not_isSome_iff_eq_none.mp hl
    · rw [alookup_queue_pos_ne s.layer s.pending c c' p hcc] at hc'
      exact hinv c' hc'
  | dispatch ok =>
    cases Option.some.inj h
    intro c' hc'
    refine hinv c' ?_
    by_contra hno
    rw [Option.not_isSome_iff_eq_none] at hno
    rw [sendRecvDispatch_lookup_none ok s.pending c' hno] at hc'
    simp at hc'
  | recv c vc =>
    have h2 : processReceived s c vc = some s2 := h
    unfold processReceived at h2
    match hm : alookup s.pending c with
    | some none =>
      rw [hm] at h2
      cases Option.some.inj h2
      intro c' hc'
      by_cases hcc : c' = c
      · subst hcc
        rw [alookup_aremove_self] at hc'
        simp at hc'
      · rw [alookup_aremove_ne s.pending c c' hcc] at hc'
        rw [alookup_append_right s.layer _ c' (hinv c' hc'),
          alookup_singleton_ne c c' vc hcc]
    | some (some p) => rw [hm] at h2; exact Option.noConfusion h2
    | none => rw [hm] at h2; exact Option.noConfusion h2
  | setViewers f =>
    cases Option.some.inj h
    intro c' hc'
    rw [alookup_setViewerCounts, hinv c' hc']
    rfl
  | evict =>
    cases Option.some.inj h
    intro c' hc'
    exact alookup_remove_unviewed_none s.layer c' (hinv c' hc')

theorem reachable_wf_fresh (s : SysState) (h : Reachable s) :
    WF s.pending ∧ PendingFresh s := by
  induction h with
  | init =>
    constructor
    · exact List.nodup_nil
    · intro c hc
      simp [alookup] at hc
  | next hr hs ih =>
    exact ⟨step_WF _ _ _ hs ih.1, step_preserves_fresh _ _ _ hs ih.2⟩

/-- C6. In every reachable state, a coordinate registered in the pending map
(queued or dispatched) has no chunk in the layer: requests are only inserted
when the layer has no chunk there, and merging a finished chunk removes the
registry entry in the same step. -/
theorem c6_pending_only_while_ungenerated (s : SysState) (h : Reachable s)
    (c : ChunkPos) (hc : (alookup s.pending c).isSome) :
    alookup s.layer c = none :=
  (reachable_wf_fresh s h).2 c hc

/-- Witness for C6 at a concrete reachable state (one request applied to the
initial state). -/
theorem c6_pending_only_while_ungenerated_witness :
    alookup ([] : Layer) ((0 : Int), (0 : Int)) = none := by
  refine c6_pending_only_while_ungenerated
    ⟨[(((0 : Int), (0 : Int)), some 4)], []⟩ ?_ ((0 : Int), (0 : Int))
    (by decide)
  exact @Reachable.next ⟨[], []⟩ ⟨[(((0 : Int), (0 : Int)), some 4)], []⟩
    (Op.request ((0 : Int), (0 : Int)) 4) Reachable.init (by decide)

-- ### C3: no duplicate submission without an intervening request

/-- A coordinate that holds no queued priority cannot regain one through any
operation other than a request for it. -/
theorem step_notqueued (s s2 : SysState) (op : Op) (c : ChunkPos)
    (h : step s op = some s2) (hwf : WF s.pending)
    (hnq : ∀ p, alookup s.pending c ≠ some (some p))
    (hop : ∀ p, op ≠ Op.request c p) :
    ∀ p, alookup s2.pending c ≠ some (some p) := by
  cases op with
  | request c2 p2 =>
    cases Option.some.inj h
    have hcc : c2 ≠ c := fun hc => hop p2 (by rw [hc])
    intro p
    rw [alookup_queue_pos_ne s.layer s.pending c2 c p2 fun hc => hcc hc.symm]
    exact hnq p
  | dispatch ok =>
    cases Option.some.inj h
    intro p
    rw [sendRecvDispatch_lookup_notqueued ok s.pending c hwf hnq]
    cases alookup s.pending c <;> simp
  | recv c2 vc =>
    have h2 : processReceived s c2 vc = some s2 := h
    unfold processReceived at h2
    match hm : alookup s.pending c2 with
    | some none =>
      rw [hm] at h2
      cases Option.some.inj h2
      intro p
      by_cases hcc : c = c2
      · subst hcc
        rw [alookup_aremove_self]
        simp
      · rw [alookup_aremove_ne s.pending c2 c hcc]
        exact hnq p
    | some (some q) => rw [hm] at h2; exact Option.noConfusion h2
    | none => rw [hm] at h2; exact Option.noConfusion h2
  | setViewers f =>
    cases Option.some.inj h
    exact hnq
  | evict =>
    cases Option.some.inj h
    exact hnq

theorem runO_notqueued (c : ChunkPos) :
    ∀ (l : List Op) (s s2 : SysState), runO s l = some s2 →
      WF s.pending → (∀ p, alookup s.pending c ≠ some (some p)) →
      (∀ p, Op.request c p ∉ l) →
      ∀ p, alookup s2.pending c ≠ some (some p) := by
  intro l
  induction l with
  | nil =>
    intro s s2 h _ hnq _
    cases Option.some.inj h
    exact hnq
  | cons op rest ih =>
    intro s s2 h hwf hnq hnoreq
    unfold runO at h
    match hs : step s op with
    | some s1 =>
      rw [hs] at h
      have hop : ∀ p, op ≠ Op.request c p := by
        intro p hp
        refine hnoreq p ?_
        rw [← hp]
        exact List.mem_cons_self op rest
      refine ih s1 s2 h (step_WF s s1 op hs hwf)
        (step_notqueued s s1 op c hs hwf hnq hop) ?_
      intro p hp
      exact hnoreq p (List.mem_cons_of_mem op hp)
    | none => rw [hs] at h; exact Option.noConfusion h

/-- C3. A coordinate delivered to the workers by one dispatch phase is not
delivered again by a later dispatch phase unless a request for it occurred in
between: successful submission leaves the entry `Dispatched`, and without an
intervening request no operation restores a queued priority for it. -/
theorem c3_no_duplicate_submission (s : SysState) (ok ok2 : ChunkPos → Bool)
    (c : ChunkPos) (l : List Op) (s2 : SysState) (hwf : WF s.pending)
    (hsub : c ∈ (sendRecvDispatch ok s.pending).2)
    (hnoreq : ∀ p, Op.request c p ∉ l)
    (hrun : runO ⟨(sendRecvDispatch ok s.pending).1, s.layer⟩ l = some s2) :
    c ∉ (sendRecvDispatch ok2 s2.pending).2 := by
  have hok : ok c = true := ((mem_dispatch_submitted ok s.pending c).mp hsub).2
  have h1 : ∀ p,
      alookup (sendRecvDispatch ok s.pending).1 c ≠ some (some p) := by
    intro p
    unfold sendRecvDispatch
    rw [sendLoop_lookup_ok ok _ _ c hok, alookup_takeAll]
    cases alookup s.pending c <;> simp
  have hwf1 : WF (sendRecvDispatch ok s.pending).1 :=
    sendLoop_WF ok _ _ (WF_takeAll s.pending hwf)
  have h2 := runO_notqueued c l
    ⟨(sendRecvDispatch ok s.pending).1, s.layer⟩ s2 hrun hwf1 h1 hnoreq
  intro hsub2
  obtain ⟨⟨p, hp⟩, -⟩ := (mem_dispatch_submitted ok2 s2.pending c).mp hsub2
  have hwf2 : WF s2.pending := runO_WF l _ s2 hrun hwf1
  exact h2 p
    (mem_alookup s2.pending c _ hwf2 ((mem_queuedPairs s2.pending p c).mp hp))

/-- Witness for C3: after submitting (0,0) with no intervening request, the
next dispatch phase does not submit it again. -/
theorem c3_no_duplicate_submission_witness :
    ((0 : Int), (0 : Int)) ∉ (sendRecvDispatch (fun _ => true)
      (sendRecvDispatch (fun _ => true)
        [(((0 : Int), (0 : Int)), some 1)]).1).2 := by
  refine c3_no_duplicate_submission
    ⟨[(((0 : Int), (0 : Int)), some 1)], []⟩ (fun _ => true) (fun _ => true)
    ((0 : Int), (0 : Int)) [] _ (by decide) (by decide) ?_ rfl
  intro p hp
  exact List.not_mem_nil _ hp

-- ### C10: a lost worker result leaves the entry dispatched forever

/-- With no result ever received for `c`, a `Dispatched` entry and the
absence of a chunk for `c` persist across every single operation. -/
theorem step_stuck (s s2 : SysState) (op : Op) (c : ChunkPos)
    (h : step s op = some s2) (hwf : WF s.pending)
    (hdisp : alookup s.pending c = some none)
    (hlayer : alookup s.layer c = none)
    (hop : ∀ vc, op ≠ Op.recv c vc) :
    alookup s2.pending c = some none ∧ alookup s2.layer c = none := by
  cases op with
  | request c2 p2 =>
    cases Option.some.inj h
    refine ⟨?_, hlayer⟩
    by_cases hcc : c2 = c
    · subst hcc
      rw [queue_pos_dispatched s.layer s.pending c2 p2 hdisp]
      exact hdisp
    · rw [alookup_queue_pos_ne s.layer s.pending c2 c p2 fun hc => hcc hc.symm]
      exact hdisp
  | dispatch ok =>
    cases Option.some.inj h
    refine ⟨?_, hlayer⟩
    have hnq : ∀ p, alookup s.pending c ≠ some (some p) := by
      intro p hp
      rw [hdisp] at hp
      exact Option.noConfusion (Option.some.inj hp)
    rw [sendRecvDispatch_lookup_notqueued ok s.pending c hwf hnq, hdisp]
    rfl
  | recv c2 vc =>
    have h2 : processReceived s c2 vc = some s2 := h
    unfold processReceived at h2
    match hm : alookup s.pending c2 with
    | some none =>
      rw [hm] at h2
      cases Option.some.inj h2
      have hcc : c2 ≠ c := fun hc => hop vc (by rw [hc])
      constructor
      · rw [alookup_aremove_ne s.pending c2 c fun hc => hcc hc.symm]
        exact hdisp
      · rw [alookup_append_right s.layer _ c hlayer,
          alookup_singleton_ne c2 c vc fun hc => hcc hc.symm]
    | some (some p) => rw [hm] at h2; exact Option.noConfusion h2
    | none => rw [hm] at h2; exact Option.noConfusion h2
  | setViewers f =>
    cases Option.some.inj h
    refine ⟨hdisp, ?_⟩
    rw [alookup_setViewerCounts, hlayer]
    rfl
  | evict =>
    cases Option.some.inj h
    exact ⟨hdisp, alookup_remove_unviewed_none s.layer c hlayer⟩

theorem runO_stuck (c : ChunkPos) :
    ∀ (l : List Op) (s s2 : SysState), runO s l = some s2 → WF s.pending →
      alookup s.pending c = some none → alookup s.layer c = none →
      (∀ vc, Op.recv c vc ∉ l) →
      alookup s2.pending c = some none ∧ alookup s2.layer c = none := by
  intro l
  induction l with
  | nil =>
    intro s s2 h _ hd hl _
    cases Option.some.inj h
    exact ⟨hd, hl⟩
  | cons op rest ih =>
    intro s s2 h hwf hd hl hnorecv
    unfold runO at h
    match hs : step s op with
    | some s1 =>
      rw [hs] at h
      have hop : ∀ vc, op ≠ Op.recv c vc := by
        intro vc hv
        refine hnorecv vc ?_
        rw [← hv]
        exact List.mem_cons_self op rest
      obtain ⟨hd1, hl1⟩ := step_stuck s s1 op c hs hwf hd hl hop
      refine ih s1 s2 h (step_WF s s1 op hs hwf) hd1 hl1 ?_
      intro vc hv
      exact hnorecv vc (List.mem_cons_of_mem op hv)
    | none => rw [hs] at h; exact Option.noConfusion h

/-- C10. If a worker's send of a finished chunk for `c` fails, the grid is
dropped and nothing ever completes the entry: from any state where `c` is
dispatched and absent from the layer, as long as no result for `c` is
received, the entry remains `Dispatched` forever, no chunk for `c` ever
enters the layer, and no later dispatch phase submits `c` again. -/
theorem c10_lost_result_stuck (s : SysState) (c : ChunkPos) (l : List Op)
    (s2 : SysState) (hwf : WF s.pending)
    (hdisp : alookup s.pending c = some none)
    (hlayer : alookup s.layer c = none)
    (hnorecv : ∀ vc, Op.recv c vc ∉ l)
    (hrun : runO s l = some s2) :
    alookup s2.pending c = some none ∧ alookup s2.layer c = none ∧
    ∀ ok : ChunkPos → Bool, c ∉ (sendRecvDispatch ok s2.pending).2 := by
  obtain ⟨hd2, hl2⟩ := runO_stuck c l s s2 hrun hwf hdisp hlayer hnorecv
  refine ⟨hd2, hl2, ?_⟩
  intro ok hsub
  obtain ⟨⟨p, hp⟩, -⟩ := (mem_dispatch_submitted ok s2.pending c).mp hsub
  have hwf2 : WF s2.pending := runO_WF l s s2 hrun hwf
  have hcontra := mem_alookup s2.pending c _ hwf2
    ((mem_queuedPairs s2.pending p c).mp hp)
  rw [hd2] at hcontra
  exact Option.noConfusion (Option.some.inj hcontra)

/-- Witness for C10: a dispatched coordinate whose result never arrives stays
dispatched across a dispatch cycle and is not resubmitted. -/
theorem c10_lost_result_stuck_witness :
    ((0 : Int), (0 : Int)) ∉ (sendRecvDispatch (fun _ => true)
      (sendRecvDispatch (fun _ => true)
        [(((0 : Int), (0 : Int)), (none : Option Priority))]).1).2 := by
  refine (c10_lost_result_stuck
    ⟨[(((0 : Int), (0 : Int)), (none : Option Priority))], []⟩
    ((0 : Int), (0 : Int)) [Op.dispatch (fun _ => true)] _ (by decide)
    (by decide) (by decide) ?_ rfl).2.2 (fun _ => true)
  intro vc hv
  exact Op.noConfusion (List.mem_singleton.mp hv)

-- ### C7: the eviction pass

/-- The chain of world systems actually registered for the Update schedule in
main.rs:113-119: `init_clients_world` (no effect on registry or layer),
`update_client_views` (the queued `(pos, dist)` requests `reqs`, all checked
against the tick's layer), then `send_recv_chunks` (receive phase over the
drained results `recvs`, then the dispatch phase). The
`remove_unviewed_chunks` line is commented out (main.rs:117), so no eviction
happens in the tick. -/
def registeredTick (reqs : List (ChunkPos × Priority))
    (recvs : List (ChunkPos × Nat)) (ok : ChunkPos → Bool) (s : SysState) :
    Option SysState :=
  let afterViews : SysState :=
    ⟨reqs.foldl (fun m r => queue_pos s.layer m r.1 r.2) s.pending, s.layer⟩
  let afterRecv := recvs.foldl
    (fun acc r => acc.bind fun st => processReceived st r.1 r.2)
    (some afterViews)
  afterRecv.map fun st => ⟨(sendRecvDispatch ok st.pending).1, st.layer⟩

/-- C7 (code bug). The eviction function `remove_unviewed_chunks` retains
exactly the entries with a positive viewer count — but it is not registered
in the Update schedule (main.rs:117 is commented out), so a zero-viewer
chunk survives a full control tick unchanged instead of being evicted. -/
theorem c7_eviction_unscheduled :
    (∀ (layer : Layer) (c : ChunkPos) (n : Nat),
      (c, n) ∈ remove_unviewed_chunks layer ↔ ((c, n) ∈ layer ∧ 0 < n)) ∧
    remove_unviewed_chunks
      [(((0 : Int), (0 : Int)), 0), (((1 : Int), (0 : Int)), 2)] =
      [(((1 : Int), (0 : Int)), 2)] ∧
    registeredTick [] [] (fun _ => true)
      ⟨[], [(((0 : Int), (0 : Int)), 0), (((1 : Int), (0 : Int)), 2)]⟩ =
      some ⟨[], [(((0 : Int), (0 : Int)), 0), (((1 : Int), (0 : Int)), 2)]⟩ := by
  refine ⟨?_, by decide, by decide⟩
  intro layer c n
  unfold remove_unviewed_chunks
  rw [List.mem_filter]
  constructor
  · rintro ⟨h1, h2⟩
    exact ⟨h1, of_decide_eq_true h2⟩
  · rintro ⟨h1, h2⟩
    exact ⟨h1, decide_eq_true h2⟩

-- ### The column generator (world.rs:289-463)

/-- `DVec3`, over ℚ (the generator only ever builds it from integer world
coordinates and divides/multiplies it by constants). -/
structure DVec3 where
  x : ℚ
  y : ℚ
  z : ℚ

/-- Pointwise scalar division `p / k` as used in the source. -/
def DVec3.divQ (p : DVec3) (k : ℚ) : DVec3 :=
  ⟨p.x / k, p.y / k, p.z / k⟩

/-- Pointwise scalar multiplication `p * freq` as used in `fbm`. -/
def DVec3.mulQ (p : DVec3) (k : ℚ) : DVec3 :=
  ⟨p.x * k, p.y * k, p.z * k⟩

/-- The shared worker state (world.rs:28-37) with the five `SuperSimplex`
samplers abstracted as arbitrary rational-valued fields; per the source
comment their output is "roughly [-1, 1]", taken as a hypothesis where
needed. -/
structure ChunkWorkerState where
  density : DVec3 → ℚ
  hilly : DVec3 → ℚ
  stone : DVec3 → ℚ
  gravel : DVec3 → ℚ
  grass : DVec3 → ℚ

/-- `noise01` (world.rs:461-464). -/
def noise01 (noise : DVec3 → ℚ) (p : DVec3) : ℚ :=
  (noise p + 1) / 2

/-- `lerp` (world.rs:436-438). -/
def lerp (a b t : ℚ) : ℚ :=
  a * (1 - t) + b * t

/-- `lerpstep` (world.rs:440-442). -/
def lerpstep (edge0 edge1 x : ℚ) : ℚ :=
  min (max ((x - edge0) / (edge1 - edge0)) 0) 1

/-- The `fbm` loop body (world.rs:444-459), as recursion over the remaining
octaves; returns the running `(sum, amp_sum)`. -/
def fbmAux (noise : DVec3 → ℚ) (p : DVec3) (lacunarity persistence : ℚ) :
    Nat → ℚ → ℚ → ℚ × ℚ
  | 0, _, _ => (0, 0)
  | n + 1, freq, amp =>
    let r := fbmAux noise p lacunarity persistence n (freq * lacunarity)
      (amp * persistence)
    (noise01 noise (p.mulQ freq) * amp + r.1, amp + r.2)

/-- `fbm` (world.rs:444-459): normalized fractal sum. -/
def fbm (noise : DVec3 → ℚ) (p : DVec3) (octaves : Nat)
    (lacunarity persistence : ℚ) : ℚ :=
  let r := fbmAux noise p lacunarity persistence octaves 1 1
  r.1 / r.2

/-- `has_terrain_at` (world.rs:417-434). -/
def has_terrain_at (st : ChunkWorkerState) (p : DVec3) : Bool :=
  let hilly := (lerp (1/10) 1 (noise01 st.hilly (p.divQ 400))) ^ 2
  let lower := 15 + 100 * hilly
  let upper := lower + 100 * hilly
  if p.y ≤ lower then true
  else if upper ≤ p.y then false
  else
    let density := 1 - lerpstep lower upper p.y
    let n := fbm st.density (p.divQ 100) 4 2 (1/2)
    decide (n < density)

/-- `const WATER_HEIGHT: i32 = 55` (world.rs:308). -/
def WATER_HEIGHT : Int := 55

/-- `const HEIGHT: u32 = 384` (world.rs:23). -/
def HEIGHT : Nat := 384

/-- The block states written by the generator. -/
inductive BlockState where
  | air
  | water
  | stone
  | dirt
  | gravel
  | grassBlock
  | grass
  | tallGrassLower
  | tallGrassUpper
deriving DecidableEq

/-- The `gravel_height` computed inside the terrain loop (world.rs:315-317):
`WATER_HEIGHT - 1 - (fbm(&state.gravel, p / 10.0, 3, 2.0, 0.5) * 6.0).floor()
as i32`. -/
def gravelHeight (st : ChunkWorkerState) (p : DVec3) : Int :=
  WATER_HEIGHT - 1 - Int.floor (fbm st.gravel (p.divQ 10) 3 2 (1/2) * 6)

/-- The surface depth computed at the first solid cell (world.rs:323-324):
`(noise01(&state.stone, p / 15.0) * 5.0).max(1.0).round() as u32`. -/
def surfDepth (st : ChunkWorkerState) (p : DVec3) : Nat :=
  (round (max (noise01 st.stone (p.divQ 15) * 5) 1)).toNat

/-- One iteration of the column terrain loop at height `y`
(world.rs:306-365), carrying the `(in_terrain, surface_depth)` pair
downward; returns the updated pair and the block written at `y`. -/
def columnStep (st : ChunkWorkerState) (world_x world_z : Int) (y : Int)
    (acc : Bool × Nat) : (Bool × Nat) × BlockState :=
  let p : DVec3 := ⟨(world_x : ℚ), (y : ℚ), (world_z : ℚ)⟩
  let in_terrain := acc.1
  let surface_depth := acc.2
  if has_terrain_at st p then
    let gravel_height : Int := gravelHeight st p
    if !in_terrain then
      let sd : Nat := surfDepth st p
      if y < gravel_height then ((true, sd), .gravel)
      else if y < WATER_HEIGHT then ((true, sd), .dirt)
      else ((true, sd), .grassBlock)
    else
      if 0 < surface_depth then
        if y < gravel_height then ((true, surface_depth - 1), .gravel)
        else ((true, surface_depth - 1), .dirt)
      else ((true, 0), .stone)
  else
    if y < WATER_HEIGHT then ((false, 0), .water)
    else ((false, 0), .air)

/-- `genColumnAux st wx wz n s` produces the blocks at heights `0..n-1`,
scanning from `n-1` downward with carried state `s`; index `i` of the result
is the block at height `i`. -/
def genColumnAux (st : ChunkWorkerState) (wx wz : Int) :
    Nat → (Bool × Nat) → List BlockState
  | 0, _ => []
  | n + 1, s =>
    let r := columnStep st wx wz n s
    genColumnAux st wx wz n r.1 ++ [r.2]

/-- The terrain pass for one column (world.rs:306-365), from `y = HEIGHT-1`
down to `0` starting outside terrain. -/
def genColumnTerrain (st : ChunkWorkerState) (wx wz : Int) :
    List BlockState :=
  genColumnAux st wx wz HEIGHT (false, 0)

/-- One iteration of the decoration loop at height `y` (world.rs:368-393). -/
def decorateStep (st : ChunkWorkerState) (wx wz : Int)
    (col : List BlockState) (y : Nat) : List BlockState :=
  let cur := col.getD y .air
  let below := col.getD (y - 1) .air
  if cur = .air ∧ below = .grassBlock then
    let p : DVec3 := ⟨(wx : ℚ), (y : ℚ), (wz : ℚ)⟩
    let density := fbm st.grass (p.divQ 5) 4 2 (7/10)
    if 11/20 < density then
      if 7/10 < density ∧ y + 1 < HEIGHT ∧ col.getD (y + 1) .air = .air then
        (col.set (y + 1) .tallGrassUpper).set y .tallGrassLower
      else col.set y .grass
    else col
  else col

/-- The decorated column: terrain pass, then the decoration loop over
`y = 1 .. HEIGHT-1`. -/
def genColumn (st : ChunkWorkerState) (wx wz : Int) : List BlockState :=
  (List.range' 1 (HEIGHT - 1)).foldl (decorateStep st wx wz)
    (genColumnTerrain st wx wz)

/-- The full grid `chunk_worker` produces for `pos` (world.rs:297-395): for
each `z` then `x` in `0..16`, the decorated column at world coordinates
`(pos.x*16 + x, pos.z*16 + z)`. -/
def genChunk (st : ChunkWorkerState) (pos : ChunkPos) :
    List (List (List BlockState)) :=
  (List.range 16).map fun z =>
    (List.range 16).map fun x =>
      genColumn st (pos.1 * 16 + (x : Int)) (pos.2 * 16 + (z : Int))

-- ### C8: generation is deterministic

/-- C8. Chunk generation is a pure function of the seeded samplers and the
region coordinate: two runs over equal worker states and equal positions
produce bit-identical grids. -/
theorem c8_generation_deterministic (st1 st2 : ChunkWorkerState)
    (pos1 pos2 : ChunkPos) (h1 : st1 = st2) (h2 : pos1 = pos2) :
    genChunk st1 pos1 = genChunk st2 pos2 := by
  rw [h1, h2]

/-- A concrete sampler state (all samplers constantly zero). -/
def zeroState : ChunkWorkerState :=
  ⟨fun _ => 0, fun _ => 0, fun _ => 0, fun _ => 0, fun _ => 0⟩

/-- Witness for C8 at a concrete state and position. -/
theorem c8_generation_deterministic_witness :
    genChunk zeroState ((0 : Int), (0 : Int)) =
      genChunk zeroState ((0 : Int), (0 : Int)) :=
  c8_generation_deterministic zeroState zeroState ((0 : Int), (0 : Int))
    ((0 : Int), (0 : Int)) rfl rfl

-- ### C9: the material rule of the column generator

/-- A sampler whose outputs stay in the `SuperSimplex` range `[-1, 1]`. -/
def InRange (noise : DVec3 → ℚ) : Prop :=
  ∀ p, -1 ≤ noise p ∧ noise p ≤ 1

theorem noise01_bounds (noise : DVec3 → ℚ) (p : DVec3) (h : InRange noise) :
    0 ≤ noise01 noise p ∧ noise01 noise p ≤ 1 := by
  obtain ⟨h1, h2⟩ := h p
  unfold noise01
  constructor <;> linarith

theorem fbmAux_bounds (noise : DVec3 → ℚ) (p : DVec3) (lac pers : ℚ)
    (hpers : 0 ≤ pers) (h : InRange noise) :
    ∀ (n : Nat) (freq amp : ℚ), 0 ≤ amp →
      0 ≤ (fbmAux noise p lac pers n freq amp).1 ∧
      (fbmAux noise p lac pers n freq amp).1 ≤
        (fbmAux noise p lac pers n freq amp).2 ∧
      0 ≤ (fbmAux noise p lac pers n freq amp).2 := by
  intro n
  induction n with
  | zero =>
    intro freq amp _
    simp [fbmAux]
  | succ k ih =>
    intro freq amp hamp
    obtain ⟨iha, ihb, ihc⟩ := ih (freq * lac) (amp * pers)
      (mul_nonneg hamp hpers)
    obtain ⟨na, nb⟩ := noise01_bounds noise (p.mulQ freq) h
    simp only [fbmAux]
    refine ⟨add_nonneg (mul_nonneg na hamp) iha, ?_, by linarith⟩
    have hle : noise01 noise (p.mulQ freq) * amp ≤ amp :=
      mul_le_of_le_one_left hamp nb
    linarith

theorem fbm_bounds (noise : DVec3 → ℚ) (p : DVec3) (lac pers : ℚ)
    (hpers : 0 ≤ pers) (h : InRange noise) (n : Nat) :
    0 ≤ fbm noise p (n + 1) lac pers ∧ fbm noise p (n + 1) lac pers ≤ 1 := by
  obtain ⟨ra, rb, rc⟩ := fbmAux_bounds noise p lac pers hpers h n (1 * lac)
    (1 * pers) (by simpa using hpers)
  obtain ⟨na, nb⟩ := noise01_bounds noise (p.mulQ 1) h
  unfold fbm
  simp only [fbmAux]
  constructor
  · exact div_nonneg (by nlinarith) (by linarith)
  · rw [div_le_one (by linarith)]
    nlinarith

/-- The surface depth `(stone_noise * 5.0).max(1.0).round() as u32` is
between 1 and 5 for `stone_noise` in `[0, 1]`. -/
theorem surface_depth_bounds (x : ℚ) (h1 : x ≤ 1) :
    1 ≤ (round (max (x * 5) 1)).toNat ∧ (round (max (x * 5) 1)).toNat ≤ 5 := by
  have hlo : (1 : ℚ) ≤ max (x * 5) 1 := le_max_right _ _
  have hhi : max (x * 5) 1 ≤ 5 := max_le (by linarith) (by norm_num)
  have h1r : (1 : ℤ) ≤ round (max (x * 5) 1) := by
    rw [round_eq, Int.le_floor]
    push_cast
    linarith
  have h5r : round (max (x * 5) 1) ≤ 5 := by
    rw [round_eq]
    have h6 : max (x * 5) 1 + 1 / 2 < ((6 : ℤ) : ℚ) := by push_cast; linarith
    have := Int.floor_lt.mpr h6
    omega
  constructor
  · exact (Int.le_toNat (by linarith)).mpr (by exact_mod_cast h1r)
  · exact Int.toNat_le.mpr (by exact_mod_cast h5r)

/-- With the gravel sampler in range, the computed `gravel_height` is at
most 54, i.e. strictly below the water line. -/
theorem gravelHeight_le_54 (st : ChunkWorkerState) (p : DVec3)
    (hg : InRange st.gravel) : gravelHeight st p ≤ 54 := by
  have hb := fbm_bounds st.gravel (p.divQ 10) 2 (1/2) (by norm_num) hg 2
  have hf : (0 : ℤ) ≤
      Int.floor (fbm st.gravel (p.divQ 10) 3 2 (1/2) * 6) :=
    Int.floor_nonneg.mpr (mul_nonneg hb.1 (by norm_num))
  have h55 : WATER_HEIGHT = (55 : Int) := rfl
  unfold gravelHeight
  omega

/-- With the stone sampler in range, the surface depth is between 1 and 5. -/
theorem surfDepth_bounds (st : ChunkWorkerState) (p : DVec3)
    (hs : InRange st.stone) : 1 ≤ surfDepth st p ∧ surfDepth st p ≤ 5 := by
  obtain ⟨h0, h1⟩ := noise01_bounds st.stone (p.divQ 15) hs
  exact surface_depth_bounds (noise01 st.stone (p.divQ 15)) h1

/-- C9. With the stone and gravel samplers in their documented range, the
material written for a solid cell follows the surface rule: the first solid
cell scanning downward is a grass block (hence grass block or dirt) at or
above the water line and gravel or dirt below it; while the surface depth
lasts, solid cells are soil (gravel or dirt), with the depth counting down;
once exhausted they are stone; and the surface depth computed at the first
solid cell is between 1 and 5. -/
theorem c9_material_rule (st : ChunkWorkerState) (world_x world_z y : Int)
    (sd : Nat) (hstone : InRange st.stone) (hgravel : InRange st.gravel)
    (hterrain :
      has_terrain_at st ⟨(world_x : ℚ), (y : ℚ), (world_z : ℚ)⟩ = true) :
    (WATER_HEIGHT ≤ y →
      (columnStep st world_x world_z y (false, sd)).2 =
        BlockState.grassBlock) ∧
    (y < WATER_HEIGHT →
      ((columnStep st world_x world_z y (false, sd)).2 = BlockState.gravel ∨
       (columnStep st world_x world_z y (false, sd)).2 = BlockState.dirt)) ∧
    (1 ≤ (columnStep st world_x world_z y (false, sd)).1.2 ∧
      (columnStep st world_x world_z y (false, sd)).1.2 ≤ 5) ∧
    (0 < sd →
      ((columnStep st world_x world_z y (true, sd)).2 = BlockState.gravel ∨
       (columnStep st world_x world_z y (true, sd)).2 = BlockState.dirt) ∧
      (columnStep st world_x world_z y (true, sd)).1.2 = sd - 1) ∧
    (sd = 0 →
      (columnStep st world_x world_z y (true, sd)).2 = BlockState.stone) := by
  have h55 : WATER_HEIGHT = (55 : Int) := rfl
  have hgh := gravelHeight_le_54 st
    (⟨(world_x : ℚ), (y : ℚ), (world_z : ℚ)⟩ : DVec3) hgravel
  obtain ⟨hd1, hd5⟩ := surfDepth_bounds st
    (⟨(world_x : ℚ), (y : ℚ), (world_z : ℚ)⟩ : DVec3) hstone
  refine ⟨?_, ?_, ?_, ?_, ?_⟩
  · intro hy
    have hng : ¬ (y < gravelHeight st
        (⟨(world_x : ℚ), (y : ℚ), (world_z : ℚ)⟩ : DVec3)) := by omega
    have hnw : ¬ (y < WATER_HEIGHT) := by omega
    simp [columnStep, hterrain, hng, hnw]
  · intro hy
    by_cases hyg : y < gravelHeight st
        (⟨(world_x : ℚ), (y : ℚ), (world_z : ℚ)⟩ : DVec3)
    · left
      simp [columnStep, hterrain, hyg]
    · right
      simp [columnStep, hterrain, hyg, hy]
  · by_cases hyg : y < gravelHeight st
        (⟨(world_x : ℚ), (y : ℚ), (world_z : ℚ)⟩ : DVec3)
    · refine ⟨?_, ?_⟩ <;> simp only [columnStep, hterrain, hyg] <;>
        simp [hd1, hd5]
    · by_cases hyw : y < WATER_HEIGHT
      · refine ⟨?_, ?_⟩ <;> simp only [columnStep, hterrain, hyg, hyw] <;>
          simp [hd1, hd5]
      · refine ⟨?_, ?_⟩ <;> simp only [columnStep, hterrain, hyg, hyw] <;>
          simp [hd1, hd5]
  · intro hsd
    by_cases hyg : y < gravelHeight st
        (⟨(world_x : ℚ), (y : ℚ), (world_z : ℚ)⟩ : DVec3)
    · refine ⟨Or.inl ?_, ?_⟩ <;> simp [columnStep, hterrain, hsd, hyg]
    · refine ⟨Or.inr ?_, ?_⟩ <;> simp [columnStep, hterrain, hsd, hyg]
  · intro hsd
    subst hsd
    simp [columnStep, hterrain]

/-- Witness for C9 at the concrete sampler state and a below-water-line
first solid cell. -/
theorem c9_material_rule_witness :
    (columnStep zeroState 0 0 40 (false, 0)).2 = BlockState.gravel ∨
    (columnStep zeroState 0 0 40 (false, 0)).2 = BlockState.dirt := by
  refine (c9_material_rule zeroState 0 0 40 0 ?_ ?_ ?_).2.1 (by decide)
  · intro p
    constructor <;> norm_num [zeroState]
  · intro p
    constructor <;> norm_num [zeroState]
  · simp only [has_terrain_at, zeroState, noise01, lerp, DVec3.divQ]
    rw [if_pos]
    push_cast
    norm_num

end Crystal
